import Mathlib

/-
Verification of the content-analytics core of the NuVision News repository:
  * similarity clustering            (src/lib/clustering.ts)
  * topic discovery / trend analysis (topicDiscovery module)
  * query interpretation             (src/lib/queryParser.ts)

JavaScript semantics are embedded shallowly:
  * strings are Lean `String`s, handled at the `List Char` level
    (JS `toLowerCase`, `split`, `includes`, `replace` are re-implemented
    character by character; `\W` is `[^A-Za-z0-9_]`, `\s` is whitespace),
  * JS numbers that hold exact small quantities are `Nat`/`Int`, and JS
    fractional arithmetic is modelled exactly over `ℚ` (the spec-level
    reading of the ratios and fixed thresholds; IEEE rounding of doubles
    could differ only on exact-threshold boundary inputs),
  * `[...new Set(xs)]` is `jsDedup` (first-occurrence order),
  * `Array.prototype.sort(cmp)` is the stable insertion sort `stableSort`
    (ES2019 requires sort stability, which determines the output uniquely),
  * `Map` iteration order is insertion order, modelled by ordered lists.
-/

-- Core rational arithmetic is `@[irreducible]` in Batteries; restore
-- reducibility so concrete evaluations can go through `decide`.
set_option allowUnsafeReducibility true in
attribute [semireducible] Rat.add Rat.mul Rat.sub Rat.inv

/-! ### JavaScript string and array primitives -/

/-- `s.toLowerCase()` (ASCII case folding). -/
def lowerStr (s : String) : String := String.mk (s.toList.map Char.toLower)

/-- One pass of `String.prototype.split` against a one-or-more separator
regex (`/\W+/` or `/\s+/`): runs of separator characters split the string,
and a separator run touching either end contributes an empty piece,
exactly as in JavaScript. `acc` holds the current piece reversed, `inSep`
records whether the previous character was part of a separator run. -/
def jsSplitGo (isSep : Char → Bool) : List Char → List Char → Bool → List String
  | [], acc, _ => [String.mk acc.reverse]
  | c :: cs, acc, inSep =>
    if isSep c then
      if inSep then jsSplitGo isSep cs [] true
      else String.mk acc.reverse :: jsSplitGo isSep cs [] true
    else jsSplitGo isSep cs (c :: acc) false

/-- `s.split(regex)` for a one-or-more separator class regex. -/
def jsSplit (isSep : Char → Bool) (s : String) : List String :=
  jsSplitGo isSep s.toList [] false

/-- Separator class of `/\W+/`: everything outside `[A-Za-z0-9_]`. -/
def nonWordChar (c : Char) : Bool := !(c.isAlphanum || c == '_')

/-- Substring test on character lists (`String.prototype.includes`). -/
def hasSub : List Char → List Char → Bool
  | [], pat => pat.isEmpty
  | c :: t, pat => pat.isPrefixOf (c :: t) || hasSub t pat

/-- `s.includes(pat)`. -/
def strContains (s pat : String) : Bool := hasSub s.toList pat.toList

/-- `s.replace(new RegExp(pat, "gi"), rep)` for a plain-word pattern:
global, case-insensitive, left-to-right, non-overlapping replacement.
`pat` is already lower-cased; the fuel argument (initialised to the length
of the subject) makes the recursion structural. -/
def replaceCIGo (pat rep : List Char) : Nat → List Char → List Char
  | _, [] => []
  | 0, s => s
  | fuel + 1, c :: t =>
    if !pat.isEmpty && pat.isPrefixOf ((c :: t).map Char.toLower) then
      rep ++ replaceCIGo pat rep fuel ((c :: t).drop pat.length)
    else c :: replaceCIGo pat rep fuel t

/-- `query.replace(new RegExp(term, "gi"), rep)`. -/
def jsReplaceCI (s pat rep : String) : String :=
  String.mk (replaceCIGo (pat.toList.map Char.toLower) rep.toList s.toList.length s.toList)

/-- `label.split(' ')[0]`: the characters before the first space. -/
def firstWord (s : String) : String :=
  String.mk (s.toList.takeWhile (fun c => c ≠ ' '))

/-- `[...new Set(xs)]`: deduplication keeping first occurrences in order. -/
def jsDedup {α : Type} [DecidableEq α] (l : List α) : List α :=
  l.foldl (fun acc x => if x ∈ acc then acc else acc ++ [x]) []

/-- Stable insertion of `x` into `l`: `x` goes in front of the first
element `y` with `le x y`. -/
def stInsert {α : Type} (le : α → α → Bool) (x : α) : List α → List α
  | [] => [x]
  | y :: ys => if le x y then x :: y :: ys else y :: stInsert le x ys

/-- `Array.prototype.sort(cmp)` as a stable insertion sort; `le a b` is
`cmp(a,b) <= 0`.  A stable sort is unique given the comparator, so this
agrees with the engine's merge sort. -/
def stableSort {α : Type} (le : α → α → Bool) : List α → List α
  | [] => []
  | x :: xs => stInsert le x (stableSort le xs)

/-- `Math.round` on an exact rational (our arguments are never negative
halves, where JS rounds toward +∞ exactly as `⌊x + 1/2⌋` does). -/
def jsRound (q : ℚ) : ℤ := ⌊q + 1/2⌋

/-! ### Data model

`Article` (src/lib/articles.ts): the fields the analytics core reads.
`dateMs` holds `new Date(article.date || 0).getTime()` already evaluated
(the string-to-instant parse is outside the embedded algorithms); a missing
`date` is `none`, read back as epoch 0 exactly as `new Date(0)`. -/

structure Article where
  id : Nat
  content : String
  category : String
  dateMs : Option Int
  sentimentCompound : ℚ
deriving DecidableEq, Repr

instance : Inhabited Article := ⟨⟨0, "", "", none, 0⟩⟩

/-! ### Similarity clustering (src/lib/clustering.ts) -/

/-- The stop-word set of `getKeywords`. -/
def clusterStopWords : List String :=
  ["about", "after", "before", "being", "could", "would", "should", "their",
   "there", "these", "those", "which", "while", "other"]

/-- `getKeywords`: lower-case `category + " " + content`, split on `/\W+/`,
keep tokens longer than 4 characters that are not stop-words, deduplicate,
cap at 20. -/
def getKeywords (a : Article) : List String :=
  let text := lowerStr (a.category ++ " " ++ a.content)
  let words := (jsSplit nonWordChar text).filter (fun w => 4 < w.length)
  (jsDedup (words.filter (fun w => !decide (w ∈ clusterStopWords)))).take 20

/-- `similarity`: `b.filter(w => setA.has(w)).length / Math.max(a.length, b.length, 1)`. -/
def similarity (a b : List String) : ℚ :=
  ((b.filter (fun w => decide (w ∈ a))).length : ℚ)
    / ((max a.length (max b.length 1) : ℕ) : ℚ)

/-- An article paired with its extracted keyword list (the elements of
`articleKeywords`). -/
structure KA where
  article : Article
  keywords : List String
deriving DecidableEq, Repr

/-- The ids of a list of keyword-annotated articles. -/
def kaIds (l : List KA) : List Nat := l.map (fun x => x.article.id)

/-- The absorption test of the inner scan:
`sim >= 0.3 || (sameCat && sim >= 0.15)`. -/
def absorbs (seed other : KA) : Bool :=
  decide ((3/10 : ℚ) ≤ similarity seed.keywords other.keywords) ||
    (decide (seed.article.category = other.article.category) &&
      decide ((3/20 : ℚ) ≤ similarity seed.keywords other.keywords))

/-- The inner `forEach` of `fastCluster`: scan the remaining items, skip the
ones whose id is already processed, absorb the ones passing `absorbs`
(recording their ids as processed on the spot).  Returns the absorbed
articles in scan order and the final processed set.  The JS loop scans the
whole array, but every item before the seed always has a processed id by
the time the seed opens its cluster, so scanning the suffix is exact. -/
def scanAbsorb (seed : KA) : List KA → List Nat → List Article × List Nat
  | [], proc => ([], proc)
  | o :: rest, proc =>
    if o.article.id ∈ proc then scanAbsorb seed rest proc
    else if absorbs seed o then
      let r := scanAbsorb seed rest (proc ++ [o.article.id])
      (o.article :: r.1, r.2)
    else scanAbsorb seed rest proc

/-- The outer `forEach` of `fastCluster`: each item whose id is not yet
processed seeds a cluster made of itself plus the articles its scan
absorbs; its own id is marked processed after the scan.  Clusters are
listed in creation order (the `Map` keyed by distinct seed ids preserves
insertion order). -/
def fastClusterGo : List KA → List Nat → List (List Article)
  | [], _ => []
  | item :: rest, proc =>
    if item.article.id ∈ proc then fastClusterGo rest proc
    else
      let r := scanAbsorb item rest proc
      (item.article :: r.1) :: fastClusterGo rest (r.2 ++ [item.article.id])

/-- `articles.map(a => ({ article: a, keywords: getKeywords(a) }))`. -/
def mkItems (arts : List Article) : List KA :=
  arts.map (fun a => ⟨a, getKeywords a⟩)

/-- The record built for each cluster: members sorted by date descending
(missing date = epoch 0), with the most recent as representative; the
cluster id comes from the seed (the first member). -/
structure ClusteredArticle where
  rep : Article
  clusterId : String
  isClusterRepresentative : Bool
  clusterSize : Nat
  clusteredSources : Nat
  clusterArticles : List Article
deriving DecidableEq, Repr

/-- Comparator `(a, b) => dateB - dateA` of the member sort. -/
def dateDesc (a b : Article) : Bool :=
  decide (b.dateMs.getD 0 ≤ a.dateMs.getD 0)

def mkClustered (members : List Article) : ClusteredArticle :=
  let sorted := stableSort dateDesc members
  { rep := sorted.headD default
    clusterId := "cluster-" ++ toString (members.headD default).id
    isClusterRepresentative := true
    clusterSize := members.length
    clusteredSources := members.length
    clusterArticles := members }

/-- `fastCluster`. -/
def fastCluster (arts : List Article) : List ClusteredArticle :=
  (fastClusterGo (mkItems arts) []).map mkClustered

/-- `clusterArticles` (the exported wrapper; logging dropped, the `async`
wrapper adds nothing semantically). -/
def clusterArticles (arts : List Article) : List ClusteredArticle :=
  if arts.isEmpty then [] else fastCluster arts

/-! ### Specification-side clustering (spec §4.2)

These definitions follow the wording of the specification, to be compared
with the code-level `fastCluster`. -/

/-- Modelled from the spec: "pairwise similarity is the size of the
intersection of two term sets divided by the larger of the two set sizes
(flooring the denominator at 1)".  The intersection of the two (duplicate
free) term sets is `a.filter (· ∈ b)`. -/
def specSimilarity (a b : List String) : ℚ :=
  ((a.filter (fun w => decide (w ∈ b))).length : ℚ)
    / ((max a.length (max b.length 1) : ℕ) : ℚ)

/-- Modelled from the spec: absorb a document iff its similarity to the
seed is ≥ 0.30, or ≥ 0.15 with matching category. -/
def specAbsorb (seed other : KA) : Bool :=
  decide ((3/10 : ℚ) ≤ specSimilarity seed.keywords other.keywords) ||
    (decide ((3/20 : ℚ) ≤ specSimilarity seed.keywords other.keywords) &&
      decide (seed.article.category = other.article.category))

/-- Greedy single-pass grouping in input order with absorption test `f`:
each document seeds a cluster absorbing the later documents that pass
`f`; the rest are grouped recursively.  Fuel (initialised to the list
length) makes the recursion structural. -/
def greedyF (f : KA → KA → Bool) : Nat → List KA → List (List Article)
  | 0, _ => []
  | _ + 1, [] => []
  | fuel + 1, s :: rest =>
    (s.article :: (rest.filter (f s)).map KA.article) ::
      greedyF f fuel (rest.filter (fun o => !f s o))

def greedy (f : KA → KA → Bool) (l : List KA) : List (List Article) :=
  greedyF f l.length l

/-- Modelled from the spec: the greedy grouping of §4.2 with the spec's
absorption rule. -/
def specClusters (l : List KA) : List (List Article) :=
  greedy specAbsorb l

/-! ### Topic discovery & trend analysis (topicDiscovery module)

The module imports `extractKeywords` from `tfidfAnalysis`, which is not
among the analysed sources; every topic contract is therefore verified for
an arbitrary extractor `ex content corpus k` (the claims hold uniformly). -/

def Extractor : Type := String → List String → Nat → List String

inductive Trend where
  | rising
  | stable
  | falling
deriving DecidableEq, Repr

structure Topic where
  name : String
  count : Nat
  articles : List Article
  trend : Trend
  velocity : ℚ
  keywords : List String
deriving DecidableEq, Repr

structure TopicTrend where
  topic : String
  currentCount : Nat
  previousCount : Nat
  percentageChange : ℚ
  trend : Trend
deriving DecidableEq, Repr

/-- `extractKeywords(article.content, articles.map(a => a.content), 10)
  .map(k => k.toLowerCase())` — the per-article entry of `articleKeywords`. -/
def keywordsOf (ex : Extractor) (arts : List Article) (a : Article) : List String :=
  (ex a.content (arts.map (fun x => x.content)) 10).map lowerStr

/-- `discoverTopics`: keyword frequency keys in first-seen order; the
support set of a keyword contains the articles (in input order) whose
keyword list holds it; keep keywords supported by at least `minArticles`
articles (the source defaults `minArticles` to 3 at every internal call),
sort by support size descending (stable), take 20, and build each Topic
with its support, related keywords (all co-occurring keywords, first-seen
order, without the key itself, capped at 5), trend `stable`, velocity 0. -/
def discoverTopics (ex : Extractor) (articles : List Article) (minArticles : Nat) :
    List Topic :=
  if articles.isEmpty then []
  else
    let keys := jsDedup ((articles.map (keywordsOf ex articles)).flatten)
    let entries := keys.map (fun k =>
      (k, articles.filter (fun a => decide (k ∈ keywordsOf ex articles a))))
    let signif := stableSort (fun e₁ e₂ => decide (e₂.2.length ≤ e₁.2.length))
      (entries.filter (fun e => decide (minArticles ≤ e.2.length)))
    (signif.take 20).map (fun e =>
      ⟨e.1, e.2.length, e.2, Trend.stable, 0,
        (jsDedup (((e.2.map (keywordsOf ex articles)).flatten).filter
          (fun k => !decide (k = e.1)))).take 5⟩)

/-- The record `analyzeTopicTrends` builds for one current topic:
previous count via `find` on the topic name (0 when absent), percentage
change `(current - previous) / previous * 100` guarded to 100 when the
previous count is 0, trend by the ±20 thresholds. -/
def mkTrendRecord (previousTopics : List Topic) (t : Topic) : TopicTrend :=
  let previousCount := (Option.map Topic.count
    (previousTopics.find? (fun p => p.name == t.name))).getD 0
  let percentageChange : ℚ :=
    if 0 < previousCount then
      (((t.count : ℚ) - (previousCount : ℚ)) / (previousCount : ℚ)) * 100
    else 100
  let trend := if 20 < percentageChange then Trend.rising
    else if percentageChange < -20 then Trend.falling
    else Trend.stable
  ⟨t.name, t.count, previousCount, percentageChange, trend⟩

/-- `analyzeTopicTrends`: discover both windows (default threshold 3),
build a record per current topic, sort by `|percentageChange|` descending. -/
def analyzeTopicTrends (ex : Extractor) (currentArticles previousArticles : List Article) :
    List TopicTrend :=
  let currentTopics := discoverTopics ex currentArticles 3
  let previousTopics := discoverTopics ex previousArticles 3
  stableSort (fun a b => decide (|b.percentageChange| ≤ |a.percentageChange|))
    (currentTopics.map (mkTrendRecord previousTopics))

/-- `getEmergingTopics`: sort by date descending, split at the midpoint
(`Math.floor(length / 2)` most recent vs the rest), run the trend analysis
recent-vs-older, then enrich the full-collection topics with the matching
trend record (default `stable` / 0) and sort by `|velocity|` descending. -/
def getEmergingTopics (ex : Extractor) (articles : List Article) : List Topic :=
  let sortedArticles := stableSort dateDesc articles
  let midpoint := sortedArticles.length / 2
  let recentArticles := sortedArticles.take midpoint
  let olderArticles := sortedArticles.drop midpoint
  let trends := analyzeTopicTrends ex recentArticles olderArticles
  let topics := discoverTopics ex articles 3
  stableSort (fun a b => decide (|b.velocity| ≤ |a.velocity|))
    (topics.map (fun t =>
      let td := trends.find? (fun r => r.topic == t.name)
      ⟨t.name, t.count, t.articles,
        (Option.map TopicTrend.trend td).getD Trend.stable,
        (Option.map TopicTrend.percentageChange td).getD 0,
        t.keywords⟩))

/-- `getTopicsByCategory`: group articles by category (categories in
first-seen order, members in input order — the insertion-ordered `Map`)
and discover topics per category with the lowered threshold 2. -/
def getTopicsByCategory (ex : Extractor) (articles : List Article) :
    List (String × List Topic) :=
  let cats := jsDedup (articles.map (fun a => a.category))
  cats.map (fun c =>
    (c, discoverTopics ex (articles.filter (fun a => decide (a.category = c))) 2))

/-- `findRelatedTopics`: overlap = number of the candidate's articles whose
id belongs to the given topic; drop the topic itself and zero overlaps,
sort by overlap descending, keep 5. -/
def findRelatedTopics (topic : Topic) (allTopics : List Topic) : List Topic :=
  let ids := topic.articles.map (fun a => a.id)
  let overlaps := (allTopics.filter (fun t => !decide (t.name = topic.name))).map
    (fun t => (t, (t.articles.filter (fun a => decide (a.id ∈ ids))).length))
  ((stableSort (fun p q => decide (q.2 ≤ p.2))
    (overlaps.filter (fun p => decide (0 < p.2)))).take 5).map Prod.fst

/-! ### Query interpretation (src/lib/queryParser.ts)

Only the parts the claims quantify over are embedded: category extraction,
response generation and ambiguity detection.  Dates appear in
`generateResponse` solely through three observations of a JS `Date`
(`getTime`, `toDateString`, `toLocaleDateString`), captured by `JSDate`;
the ambient `new Date()` read by the source is passed as `now`. -/

inductive Sentiment where
  | positive
  | negative
  | neutral
deriving DecidableEq, Repr

def sentimentName : Sentiment → String
  | Sentiment.positive => "positive"
  | Sentiment.negative => "negative"
  | Sentiment.neutral => "neutral"

inductive Intent where
  | search
  | filter
  | analyze
  | compare
  | summarize
deriving DecidableEq, Repr

structure JSDate where
  time : Int
  dateString : String
  localeDateString : String
deriving DecidableEq, Repr

/-- A date range; `stop` is the source's `end` field (a Lean keyword). -/
structure DateRange where
  start : JSDate
  stop : JSDate
deriving DecidableEq, Repr

/-- The `filters` of a `ParsedQuery` (the unused `sources` field is
omitted: `generateResponse` and `detectAmbiguity` never read it). -/
structure QueryFilters where
  sentiment : Option Sentiment
  categories : Option (List String)
  dateRange : Option DateRange
  keywords : Option (List String)
deriving DecidableEq, Repr

structure ParsedQuery where
  intent : Intent
  filters : QueryFilters
  originalQuery : String
deriving DecidableEq, Repr

/-- `CATEGORY_PATTERNS`, in property order. -/
def categoryTable : List (String × List String) :=
  [("Technology", ["tech", "technology", "software", "ai", "artificial intelligence",
      "computer", "digital"]),
   ("Politics", ["politics", "political", "election", "government", "policy",
      "congress", "president"]),
   ("Business", ["business", "market", "stock", "economy", "company", "trade",
      "finance", "economic"]),
   ("Science", ["science", "scientific", "research", "study", "discovery"]),
   ("Health", ["health", "medical", "medicine", "healthcare", "disease", "wellness"]),
   ("Sports", ["sports", "game", "team", "player", "championship", "league"]),
   ("Entertainment", ["entertainment", "movie", "film", "music", "celebrity", "show"]),
   ("World News", ["world", "international", "global", "foreign"]),
   ("Environment", ["environment", "climate", "green", "sustainability", "pollution"])]

/-- `extractCategories`: every category one of whose keywords occurs as a
substring of the (lower-cased) query, in table order. -/
def extractCategories (query : String) : List String :=
  (categoryTable.filter (fun p => p.2.any (fun kw => strContains query kw))).map Prod.fst

/-- The pre-intent part of `generateResponse`: result count plus one clause
per active filter dimension, joined with spaces, closed by a period. -/
def responseBase (now : JSDate) (q : ParsedQuery) (results : List Article) : String :=
  let base := "Found " ++ toString results.length ++ " article" ++
    (if results.length != 1 then "s" else "")
  let d1 : List String := match q.filters.sentiment with
    | some s => ["with " ++ sentimentName s ++ " sentiment"]
    | none => []
  let d2 : List String := match q.filters.categories with
    | some cats => if 0 < cats.length then ["in " ++ String.intercalate ", " cats] else []
    | none => []
  let d3 : List String := match q.filters.dateRange with
    | some r =>
      if r.start.dateString == now.dateString then ["from today"]
      else if r.stop.time - r.start.time ≤ 7 * 24 * 60 * 60 * 1000 then ["from this week"]
      else ["from " ++ r.start.localeDateString ++ " to " ++ r.stop.localeDateString]
    | none => []
  let d4 : List String := match q.filters.keywords with
    | some kws =>
      if 0 < kws.length then ["matching \"" ++ String.intercalate ", " kws ++ "\""] else []
    | none => []
  let descs := d1 ++ d2 ++ d3 ++ d4
  base ++ (if descs.isEmpty then "" else " " ++ String.intercalate " " descs) ++ "."

def summarizeClause : String := " I can provide a summary of these articles."

def analyzeClause : String := " I can analyze these articles for patterns and insights."

def compareClause : String := " I can compare how different sources cover this topic."

def noResultsMessage : String :=
  "I couldn\x27t find any articles matching your query. Try adjusting your search criteria or using different keywords."

/-- `generateResponse`: the base message, the three sequential
intent-clause appends (summarize/analyze need non-empty results, compare
needs more than one), then the whole-message override when the result set
is empty. -/
def generateResponse (now : JSDate) (q : ParsedQuery) (results : List Article) : String :=
  let r0 := responseBase now q results
  let r1 := if q.intent = Intent.summarize ∧ 0 < results.length
    then r0 ++ summarizeClause else r0
  let r2 := if q.intent = Intent.analyze ∧ 0 < results.length
    then r1 ++ analyzeClause else r1
  let r3 := if q.intent = Intent.compare ∧ 1 < results.length
    then r2 ++ compareClause else r2
  if results.length = 0 then noResultsMessage else r3

structure AmbiguityOption where
  label : String
  value : String
  description : String
  confidence : ℚ
deriving DecidableEq, Repr

/-- `AMBIGUOUS_ENTITIES`, in property order. -/
def ambiguousEntities : List (String × List AmbiguityOption) :=
  [("apple",
    [⟨"Apple Inc. (Technology)", "apple_tech", "Tech company, iPhone, Mac", 8/10⟩,
     ⟨"Apple (Fruit)", "apple_fruit", "The fruit", 2/10⟩]),
   ("bank",
    [⟨"Banking & Finance", "bank_finance", "Financial institutions", 85/100⟩,
     ⟨"River Bank", "bank_nature", "Geographic feature", 15/100⟩]),
   ("amazon",
    [⟨"Amazon.com", "amazon_company", "E-commerce company", 9/10⟩,
     ⟨"Amazon Rainforest", "amazon_nature", "South American forest", 1/10⟩]),
   ("python",
    [⟨"Python (Programming)", "python_tech", "Programming language", 7/10⟩,
     ⟨"Python (Snake)", "python_animal", "The reptile", 3/10⟩]),
   ("tesla",
    [⟨"Tesla Inc.", "tesla_company", "Electric car company", 85/100⟩,
     ⟨"Nikola Tesla", "tesla_person", "Historical inventor", 15/100⟩]),
   ("china",
    [⟨"China (Country)", "china_country", "People\x27s Republic of China", 8/10⟩,
     ⟨"China (Economy)", "china_economy", "Chinese business/trade", 2/10⟩]),
   ("virus",
    [⟨"Computer Virus", "virus_tech", "Malware, cybersecurity", 4/10⟩,
     ⟨"Biological Virus", "virus_health", "Disease, pandemic", 6/10⟩])]

def vagueTerms : List String :=
  ["stuff", "things", "news", "latest", "recent", "something", "anything", "everything"]

structure AmbiguityResult where
  isAmbiguous : Bool
  confidence : ℚ
  clarityScore : ℤ
  options : List AmbiguityOption
  suggestions : List String
  ambiguousTerms : List String
deriving DecidableEq, Repr

/-- The suggestion pushed when more than two categories match. -/
def catSuggestion (cats : List String) : String :=
  "Show me " ++ cats.headD "" ++ " news specifically"

/-- `detectAmbiguity`.  The imperative accumulation is rendered by the
matched sub-tables: an entity term matches by raw substring of the
lower-cased query, a vague term by whole-word membership in the
whitespace-split word list; each matched entity contributes 0.2 penalty,
its options, its term and one suggestion per option (the term replaced by
the option label's first word); each vague term contributes 0.1 penalty
and its term; a query of at most 2 words adds 0.15; more than 2 matched
categories add 0.1 and a narrowing suggestion.  Confidence is floored at
0.1; clarity is `Math.round(confidence * 10)`; suggestions are
deduplicated and capped at 3; `isAmbiguous` iff confidence < 0.7. -/
def detectAmbiguity (query : String) (_articles : List Article) : AmbiguityResult :=
  let lowerQuery := lowerStr query
  let words := jsSplit Char.isWhitespace lowerQuery
  let entityMatches := ambiguousEntities.filter (fun te => strContains lowerQuery te.1)
  let vagueMatches := vagueTerms.filter (fun t => decide (t ∈ words))
  let categories := extractCategories lowerQuery
  let penalty : ℚ := (2/10) * entityMatches.length + (1/10) * vagueMatches.length
    + (if words.length ≤ 2 then (15/100 : ℚ) else 0)
    + (if 2 < categories.length then (1/10 : ℚ) else 0)
  let entitySuggestions := (entityMatches.map (fun te =>
    te.2.map (fun opt => jsReplaceCI query te.1 (firstWord opt.label)))).flatten
  let suggestions := entitySuggestions ++
    (if 2 < categories.length then [catSuggestion categories] else [])
  let confidence : ℚ := max (1/10) (1 - penalty)
  ⟨decide (confidence < 7/10), confidence, jsRound (confidence * 10),
    (entityMatches.map Prod.snd).flatten,
    (jsDedup suggestions).take 3,
    entityMatches.map Prod.fst ++ vagueMatches⟩

/-! ### Concrete inputs used by the witnesses -/

def artsW : List Article :=
  [⟨1, "alpha bravo charlie", "Tech", some 100, 0⟩,
   ⟨2, "alpha bravo delta", "Tech", some 200, 0⟩,
   ⟨3, "echoes foxtrot golfing", "Sports", some 300, 0⟩]

def exW : Extractor := fun _ _ _ => ["Machine"]

def topicArtsW : List Article :=
  [⟨1, "a", "Tech", some 500, 0⟩, ⟨2, "b", "Tech", some 400, 0⟩,
   ⟨3, "c", "Tech", some 300, 0⟩, ⟨4, "d", "Sports", some 200, 0⟩,
   ⟨5, "e", "Sports", some 100, 0⟩]

def topicW : Topic := ⟨"machine", 5, topicArtsW, Trend.stable, 0, []⟩

def techTopicW : Topic :=
  ⟨"machine", 3,
   [⟨1, "a", "Tech", some 500, 0⟩, ⟨2, "b", "Tech", some 400, 0⟩,
    ⟨3, "c", "Tech", some 300, 0⟩], Trend.stable, 0, []⟩

def curW : List Article :=
  [⟨1, "a", "Tech", none, 0⟩, ⟨2, "b", "Tech", none, 0⟩, ⟨3, "c", "Tech", none, 0⟩]

def prevW : List Article := []

def trendRecW : TopicTrend := ⟨"machine", 3, 0, 100, Trend.rising⟩

def appleEntryW : String × List AmbiguityOption :=
  ("apple",
   [⟨"Apple Inc. (Technology)", "apple_tech", "Tech company, iPhone, Mac", 8/10⟩,
    ⟨"Apple (Fruit)", "apple_fruit", "The fruit", 2/10⟩])

def nowW : JSDate := ⟨0, "Thu Jan 01 1970", "1/1/1970"⟩

def resultW : List Article := [⟨1, "alpha", "Tech", none, 0⟩]

def pqCompareW : ParsedQuery :=
  ⟨Intent.compare, ⟨none, none, none, none⟩, "compare coverage"⟩

def pqSummarizeW : ParsedQuery :=
  ⟨Intent.summarize, ⟨none, none, none, none⟩, "summarize the news"⟩

/-! ### Lemmas about the primitives -/

theorem mem_jsDedup_loop {α : Type} [DecidableEq α] (l : List α) (acc : List α) (a : α) :
    a ∈ l.foldl (fun acc x => if x ∈ acc then acc else acc ++ [x]) acc ↔ a ∈ acc ∨ a ∈ l := by
  induction l generalizing acc with
  | nil => simp
  | cons x xs ih =>
    simp only [List.foldl_cons, ih]
    by_cases hx : x ∈ acc
    · simp only [if_pos hx, List.mem_cons]
      constructor
      · rintro (h | h)
        · exact Or.inl h
        · exact Or.inr (Or.inr h)
      · rintro (h | rfl | h)
        · exact Or.inl h
        · exact Or.inl hx
        · exact Or.inr h
    · simp only [if_neg hx, List.mem_append, List.mem_singleton, List.mem_cons]
      tauto

theorem nodup_jsDedup_loop {α : Type} [DecidableEq α] (l : List α) (acc : List α)
    (h : acc.Nodup) :
    (l.foldl (fun acc x => if x ∈ acc then acc else acc ++ [x]) acc).Nodup := by
  induction l generalizing acc with
  | nil => exact h
  | cons x xs ih =>
    simp only [List.foldl_cons]
    by_cases hx : x ∈ acc
    · rw [if_pos hx]; exact ih acc h
    · rw [if_neg hx]
      refine ih _ (List.Nodup.append h (List.nodup_singleton x) ?_)
      intro a ha hax
      rw [List.mem_singleton] at hax
      exact hx (hax ▸ ha)

theorem mem_jsDedup {α : Type} [DecidableEq α] {l : List α} {a : α} :
    a ∈ jsDedup l ↔ a ∈ l := by
  unfold jsDedup
  rw [mem_jsDedup_loop]
  simp

theorem nodup_jsDedup {α : Type} [DecidableEq α] (l : List α) : (jsDedup l).Nodup :=
  nodup_jsDedup_loop l [] List.nodup_nil

theorem stInsert_perm {α : Type} (le : α → α → Bool) (x : α) (l : List α) :
    (stInsert le x l).Perm (x :: l) := by
  induction l with
  | nil => exact List.Perm.refl _
  | cons y ys ih =>
    simp only [stInsert]
    split
    · exact List.Perm.refl _
    · exact (ih.cons y).trans (List.Perm.swap x y ys)

theorem stableSort_perm {α : Type} (le : α → α → Bool) (l : List α) :
    (stableSort le l).Perm l := by
  induction l with
  | nil => exact List.Perm.refl _
  | cons x xs ih => exact (stInsert_perm le x _).trans (ih.cons x)

theorem mem_stableSort {α : Type} (le : α → α → Bool) {l : List α} {a : α} :
    a ∈ stableSort le l ↔ a ∈ l :=
  (stableSort_perm le l).mem_iff

theorem length_stableSort {α : Type} (le : α → α → Bool) (l : List α) :
    (stableSort le l).length = l.length :=
  (stableSort_perm le l).length_eq

theorem mem_stInsert {α : Type} (le : α → α → Bool) (x : α) (l : List α) (a : α) :
    a ∈ stInsert le x l ↔ a = x ∨ a ∈ l := by
  rw [(stInsert_perm le x l).mem_iff, List.mem_cons]

theorem pairwise_stInsert {α : Type} (le : α → α → Bool)
    (htot : ∀ a b, le a b = true ∨ le b a = true)
    (htrans : ∀ a b c, le a b = true → le b c = true → le a c = true)
    (x : α) (l : List α) (h : l.Pairwise (fun a b => le a b = true)) :
    (stInsert le x l).Pairwise (fun a b => le a b = true) := by
  induction l with
  | nil => simp [stInsert]
  | cons y ys ih =>
    rcases List.pairwise_cons.mp h with ⟨hy, hys⟩
    simp only [stInsert]
    split
    · rename_i hxy
      refine List.pairwise_cons.mpr ⟨?_, h⟩
      intro b hb
      rcases List.mem_cons.mp hb with rfl | hb
      · exact hxy
      · exact htrans x y b hxy (hy b hb)
    · rename_i hxy
      have hyx : le y x = true := by
        rcases htot x y with hcase | hcase
        · exact absurd hcase hxy
        · exact hcase
      refine List.pairwise_cons.mpr ⟨?_, ih hys⟩
      intro b hb
      rcases (mem_stInsert le x ys b).mp hb with rfl | hb
      · exact hyx
      · exact hy b hb

theorem pairwise_stableSort {α : Type} (le : α → α → Bool)
    (htot : ∀ a b, le a b = true ∨ le b a = true)
    (htrans : ∀ a b c, le a b = true → le b c = true → le a c = true)
    (l : List α) :
    (stableSort le l).Pairwise (fun a b => le a b = true) := by
  induction l with
  | nil => simp [stableSort]
  | cons x xs ih => exact pairwise_stInsert le htot htrans x _ ih

/-! ### Lemmas: the imperative clustering pass equals the greedy grouping -/

theorem greedyF_congr_fuel (f : KA → KA → Bool) :
    ∀ (fuel₁ fuel₂ : Nat) (l : List KA), l.length ≤ fuel₁ → l.length ≤ fuel₂ →
      greedyF f fuel₁ l = greedyF f fuel₂ l := by
  intro fuel₁
  induction fuel₁ with
  | zero =>
    intro fuel₂ l h₁ _
    have hl : l = [] := List.length_eq_zero.mp (Nat.le_zero.mp h₁)
    subst hl
    cases fuel₂ <;> rfl
  | succ fuel ih =>
    intro fuel₂ l h₁ h₂
    cases l with
    | nil => cases fuel₂ <;> rfl
    | cons s rest =>
      cases fuel₂ with
      | zero => exact absurd h₂ (by simp)
      | succ f₂ =>
        simp only [greedyF]
        congr 1
        exact ih f₂ _
          (le_trans (List.length_filter_le _ _) (Nat.succ_le_succ_iff.mp h₁))
          (le_trans (List.length_filter_le _ _) (Nat.succ_le_succ_iff.mp h₂))

theorem greedy_cons (f : KA → KA → Bool) (s : KA) (rest : List KA) :
    greedy f (s :: rest) =
      (s.article :: (rest.filter (f s)).map KA.article) ::
        greedy f (rest.filter (fun o => !f s o)) := by
  show greedyF f (s :: rest).length (s :: rest) = _
  simp only [List.length_cons, greedyF]
  congr 1
  exact greedyF_congr_fuel f rest.length _ _ (List.length_filter_le _ _) le_rfl

theorem greedyF_fun_congr (f g : KA → KA → Bool) :
    ∀ (fuel : Nat) (l : List KA), (∀ x ∈ l, ∀ y ∈ l, f x y = g x y) →
      greedyF f fuel l = greedyF g fuel l := by
  intro fuel
  induction fuel with
  | zero => intro l _; rfl
  | succ fuel ih =>
    intro l hfg
    cases l with
    | nil => rfl
    | cons s rest =>
      have hs : s ∈ s :: rest := List.mem_cons_self s rest
      have hf1 : rest.filter (f s) = rest.filter (g s) :=
        List.filter_congr fun o ho => hfg s hs o (List.mem_cons_of_mem s ho)
      have hf2 : rest.filter (fun o => !f s o) = rest.filter (fun o => !g s o) :=
        List.filter_congr fun o ho => by
          rw [hfg s hs o (List.mem_cons_of_mem s ho)]
      simp only [greedyF, hf1, hf2]
      congr 1
      exact ih _ fun x hx y hy =>
        hfg x (List.mem_cons_of_mem s (List.mem_of_mem_filter hx))
          y (List.mem_cons_of_mem s (List.mem_of_mem_filter hy))

theorem greedy_fun_congr (f g : KA → KA → Bool) (l : List KA)
    (h : ∀ x ∈ l, ∀ y ∈ l, f x y = g x y) : greedy f l = greedy g l :=
  greedyF_fun_congr f g l.length l h

theorem scanAbsorb_eq (seed : KA) :
    ∀ (rest : List KA) (proc : List Nat), (kaIds rest).Nodup →
      scanAbsorb seed rest proc =
        (((rest.filter (fun o => !decide (o.article.id ∈ proc))).filter
            (absorbs seed)).map KA.article,
         proc ++ kaIds ((rest.filter (fun o => !decide (o.article.id ∈ proc))).filter
            (absorbs seed))) := by
  intro rest
  induction rest with
  | nil => intro proc _; simp [scanAbsorb, kaIds]
  | cons o rest ih =>
    intro proc h
    have ho : o.article.id ∉ kaIds rest := by
      have := h
      simp only [kaIds, List.map_cons, List.nodup_cons] at this
      exact this.1
    have h' : (kaIds rest).Nodup := by
      have := h
      simp only [kaIds, List.map_cons, List.nodup_cons] at this
      exact this.2
    by_cases hp : o.article.id ∈ proc
    · rw [show scanAbsorb seed (o :: rest) proc = scanAbsorb seed rest proc from by
        simp [scanAbsorb, hp]]
      rw [ih proc h']
      simp [List.filter_cons, hp]
    · by_cases ha : absorbs seed o = true
      · rw [show scanAbsorb seed (o :: rest) proc =
            ((o.article :: (scanAbsorb seed rest (proc ++ [o.article.id])).1),
             (scanAbsorb seed rest (proc ++ [o.article.id])).2) from by
          simp [scanAbsorb, hp, ha]]
        have hfe : rest.filter (fun x => !decide (x.article.id ∈ proc ++ [o.article.id]))
            = rest.filter (fun x => !decide (x.article.id ∈ proc)) := by
          apply List.filter_congr
          intro x hx
          have hne : x.article.id ≠ o.article.id := by
            intro he
            exact ho (he ▸ List.mem_map_of_mem (fun y => y.article.id) hx)
          simp [List.mem_append, hne]
        rw [ih (proc ++ [o.article.id]) h', hfe]
        simp [List.filter_cons, hp, ha, kaIds, List.append_assoc]
      · rw [show scanAbsorb seed (o :: rest) proc = scanAbsorb seed rest proc from by
          simp [scanAbsorb, hp, ha]]
        rw [ih proc h']
        simp [List.filter_cons, hp, ha]

theorem fastClusterGo_eq :
    ∀ (items : List KA) (proc : List Nat), (kaIds items).Nodup →
      fastClusterGo items proc =
        greedy absorbs (items.filter (fun x => !decide (x.article.id ∈ proc))) := by
  intro items
  induction items with
  | nil => intro proc _; rfl
  | cons item rest ih =>
    intro proc h
    have hid : item.article.id ∉ kaIds rest := by
      have := h
      simp only [kaIds, List.map_cons, List.nodup_cons] at this
      exact this.1
    have h' : (kaIds rest).Nodup := by
      have := h
      simp only [kaIds, List.map_cons, List.nodup_cons] at this
      exact this.2
    by_cases hp : item.article.id ∈ proc
    · rw [show fastClusterGo (item :: rest) proc = fastClusterGo rest proc from by
        simp [fastClusterGo, hp]]
      rw [ih proc h']
      congr 1
      simp [List.filter_cons, hp]
    · rw [show fastClusterGo (item :: rest) proc =
          (item.article :: (scanAbsorb item rest proc).1) ::
            fastClusterGo rest ((scanAbsorb item rest proc).2 ++ [item.article.id]) from by
        simp [fastClusterGo, hp]]
      rw [scanAbsorb_eq item rest proc h']
      rw [ih _ h']
      have hstep : (item :: rest).filter (fun x => !decide (x.article.id ∈ proc))
          = item :: rest.filter (fun x => !decide (x.article.id ∈ proc)) := by
        simp [List.filter_cons, hp]
      rw [hstep, greedy_cons]
      congr 1
      have hfuse : (rest.filter (fun x => !decide (x.article.id ∈ proc))).filter
            (fun o => !absorbs item o)
          = rest.filter (fun o => !absorbs item o && !decide (o.article.id ∈ proc)) :=
        List.filter_filter _ _
      have hbig : rest.filter (fun x =>
            !decide (x.article.id ∈
              (proc ++ kaIds ((rest.filter (fun o => !decide (o.article.id ∈ proc))).filter
                (absorbs item))) ++ [item.article.id]))
          = rest.filter (fun o => !absorbs item o && !decide (o.article.id ∈ proc)) := by
        apply List.filter_congr
        intro x hx
        have hxne : x.article.id ≠ item.article.id := by
          intro he
          exact hid (he ▸ List.mem_map_of_mem (fun y => y.article.id) hx)
        have hiff : x.article.id ∈
            kaIds ((rest.filter (fun o => !decide (o.article.id ∈ proc))).filter
              (absorbs item))
            ↔ (x.article.id ∉ proc ∧ absorbs item x = true) := by
          constructor
          · intro hmem
            simp only [kaIds, List.mem_map] at hmem
            obtain ⟨y, hy, hyx⟩ := hmem
            have hyr : y ∈ rest :=
              List.mem_of_mem_filter (List.mem_of_mem_filter hy)
            have hxy : y = x := List.inj_on_of_nodup_map h' hyr hx hyx
            subst hxy
            simp only [List.mem_filter, Bool.not_eq_true', decide_eq_false_iff_not] at hy
            exact ⟨hy.1.2, hy.2⟩
          · rintro ⟨h1, h2⟩
            simp only [kaIds, List.mem_map]
            refine ⟨x, ?_, rfl⟩
            simp [List.mem_filter, h1, h2, hx]
        by_cases h1 : x.article.id ∈ proc
        · have hP : x.article.id ∈
              (proc ++ kaIds ((rest.filter (fun o => !decide (o.article.id ∈ proc))).filter
                (absorbs item))) ++ [item.article.id] := by
            simp only [List.mem_append]
            exact Or.inl (Or.inl h1)
          rw [decide_eq_true hP, decide_eq_true h1]
          simp
        · by_cases h2 : absorbs item x = true
          · have hP : x.article.id ∈
                (proc ++ kaIds ((rest.filter (fun o => !decide (o.article.id ∈ proc))).filter
                  (absorbs item))) ++ [item.article.id] := by
              simp only [List.mem_append]
              exact Or.inl (Or.inr (hiff.mpr ⟨h1, h2⟩))
            rw [decide_eq_true hP, decide_eq_false h1, h2]
            simp
          · have hP : x.article.id ∉
                (proc ++ kaIds ((rest.filter (fun o => !decide (o.article.id ∈ proc))).filter
                  (absorbs item))) ++ [item.article.id] := by
              intro hc
              simp only [List.mem_append, List.mem_singleton] at hc
              rcases hc with (hc | hc) | hc
              · exact h1 hc
              · exact h2 (hiff.mp hc).2
              · exact hxne hc
            cases hab : absorbs item x
            · rw [decide_eq_false hP, decide_eq_false h1]
              simp
            · exact absurd hab h2
      rw [hbig, ← hfuse]

theorem greedyF_flatten_perm (f : KA → KA → Bool) :
    ∀ (fuel : Nat) (l : List KA), l.length ≤ fuel →
      ((greedyF f fuel l).flatten).Perm (l.map KA.article) := by
  intro fuel
  induction fuel with
  | zero =>
    intro l h
    have hl : l = [] := List.length_eq_zero.mp (Nat.le_zero.mp h)
    subst hl
    simp [greedyF]
  | succ fuel ih =>
    intro l h
    cases l with
    | nil => simp [greedyF]
    | cons s rest =>
      simp only [greedyF, List.flatten_cons, List.map_cons, List.cons_append]
      apply List.Perm.cons
      have hrec := ih (rest.filter (fun o => !f s o))
        (le_trans (List.length_filter_le _ _) (Nat.succ_le_succ_iff.mp h))
      have h1 : (((rest.filter (f s)).map KA.article) ++
            (greedyF f fuel (rest.filter (fun o => !f s o))).flatten).Perm
          (((rest.filter (f s)).map KA.article) ++
            ((rest.filter (fun o => !f s o)).map KA.article)) :=
        List.Perm.append_left _ hrec
      have h3 : ((rest.filter (f s) ++ rest.filter (fun o => !f s o)).map KA.article).Perm
          (rest.map KA.article) :=
        List.Perm.map _ (List.filter_append_perm _ _)
      exact h1.trans (by rw [← List.map_append]; exact h3)

theorem greedyF_singleton (f : KA → KA → Bool) :
    ∀ (fuel : Nat) (l : List KA) (d : KA), l.length ≤ fuel → l.Nodup → d ∈ l →
      (∀ o ∈ l, o ≠ d → f d o = false ∧ f o d = false) →
      [d.article] ∈ greedyF f fuel l := by
  intro fuel
  induction fuel with
  | zero =>
    intro l d h _ hd _
    rw [List.length_eq_zero.mp (Nat.le_zero.mp h)] at hd
    exact absurd hd (List.not_mem_nil d)
  | succ fuel ih =>
    intro l d h hnd hd hcond
    cases l with
    | nil => exact absurd hd (List.not_mem_nil d)
    | cons s rest =>
      rcases List.nodup_cons.mp hnd with ⟨hs, hrest⟩
      rcases List.mem_cons.mp hd with rfl | hdrest
      · have hfil : rest.filter (f d) = [] := by
          apply List.filter_eq_nil_iff.mpr
          intro o ho
          have hne : o ≠ d := fun he => hs (he ▸ ho)
          rw [(hcond o (List.mem_cons_of_mem d ho) hne).1]
          simp
        simp only [greedyF, hfil, List.map_nil]
        exact List.mem_cons_self _ _
      · have hne : s ≠ d := fun he => hs (he ▸ hdrest)
        have hfsd : f s d = false := (hcond s (List.mem_cons_self s rest) hne).2
        apply List.mem_cons_of_mem
        apply ih (rest.filter (fun o => !f s o)) d
        · exact le_trans (List.length_filter_le _ _) (Nat.succ_le_succ_iff.mp h)
        · exact hrest.filter _
        · rw [List.mem_filter]
          exact ⟨hdrest, by simp [hfsd]⟩
        · intro o ho hone
          exact hcond o (List.mem_cons_of_mem s (List.mem_of_mem_filter ho)) hone

theorem nodup_getKeywords (a : Article) : (getKeywords a).Nodup := by
  simp only [getKeywords]
  exact List.Sublist.nodup (List.take_sublist _ _) (nodup_jsDedup _)

theorem length_filter_mem_comm {a b : List String} (ha : a.Nodup) (hb : b.Nodup) :
    (b.filter (fun w => decide (w ∈ a))).length
      = (a.filter (fun w => decide (w ∈ b))).length := by
  rw [← List.toFinset_card_of_nodup (hb.filter _),
    ← List.toFinset_card_of_nodup (ha.filter _)]
  congr 1
  ext w
  simp only [List.mem_toFinset, List.mem_filter, decide_eq_true_eq]
  exact ⟨fun h => ⟨h.2, h.1⟩, fun h => ⟨h.2, h.1⟩⟩

theorem similarity_eq_spec {a b : List String} (ha : a.Nodup) (hb : b.Nodup) :
    similarity a b = specSimilarity a b := by
  unfold similarity specSimilarity
  rw [length_filter_mem_comm ha hb]

theorem absorbs_eq_spec (s o : KA) (hs : s.keywords.Nodup) (ho : o.keywords.Nodup) :
    absorbs s o = specAbsorb s o := by
  unfold absorbs specAbsorb
  rw [similarity_eq_spec hs ho, Bool.and_comm]

theorem mem_mkItems_keywords {arts : List Article} {x : KA} (hx : x ∈ mkItems arts) :
    x.keywords.Nodup := by
  simp only [mkItems, List.mem_map] at hx
  obtain ⟨a, _, rfl⟩ := hx
  exact nodup_getKeywords a

theorem kaIds_mkItems (arts : List Article) :
    kaIds (mkItems arts) = arts.map (fun a => a.id) := by
  simp [kaIds, mkItems, List.map_map]

theorem clusterMembers_eq (arts : List Article)
    (h : (arts.map (fun a => a.id)).Nodup) :
    (fastCluster arts).map (fun c => c.clusterArticles) = greedy absorbs (mkItems arts) := by
  unfold fastCluster
  rw [List.map_map]
  have h1 : (kaIds (mkItems arts)).Nodup := by rw [kaIds_mkItems]; exact h
  rw [fastClusterGo_eq (mkItems arts) [] h1]
  have h2 : (mkItems arts).filter (fun x => !decide (x.article.id ∈ ([] : List Nat)))
      = mkItems arts := by
    apply List.filter_eq_self.mpr
    intro a _
    simp
  rw [h2]
  have h3 : ((fun c => ClusteredArticle.clusterArticles c) ∘ mkClustered) = id := by
    funext m
    rfl
  rw [h3, List.map_id]

/-- Claim C1: for a collection with pairwise-distinct ids, the member lists
of the clusters returned by `clusterArticles` partition the input — their
concatenation is a permutation of the input, every input article occurs in
it exactly once — and an article with no sufficiently similar peer (one
that the absorption test ties to no other article in either direction)
forms a singleton cluster of size 1. -/
theorem clusterArticles_partition (arts : List Article)
    (h : (arts.map (fun a => a.id)).Nodup) :
    (((clusterArticles arts).map (fun c => c.clusterArticles)).flatten).Perm arts
    ∧ (∀ a ∈ arts,
        (((clusterArticles arts).map (fun c => c.clusterArticles)).flatten).count a = 1)
    ∧ (∀ a ∈ arts,
        (∀ b ∈ arts, b.id ≠ a.id →
          absorbs ⟨a, getKeywords a⟩ ⟨b, getKeywords b⟩ = false ∧
          absorbs ⟨b, getKeywords b⟩ ⟨a, getKeywords a⟩ = false) →
        [a] ∈ (clusterArticles arts).map (fun c => c.clusterArticles)) := by
  by_cases he : arts = []
  · subst he
    refine ⟨?_, ?_, ?_⟩
    · simp [clusterArticles]
    · intro a ha
      exact absurd ha (List.not_mem_nil a)
    · intro a ha
      exact absurd ha (List.not_mem_nil a)
  · have hne : arts.isEmpty = false := by
      cases arts with
      | nil => exact absurd rfl he
      | cons x xs => rfl
    have hcl : clusterArticles arts = fastCluster arts := by
      simp [clusterArticles, hne]
    have hperm : ((greedy absorbs (mkItems arts)).flatten).Perm arts := by
      have hp := greedyF_flatten_perm absorbs (mkItems arts).length (mkItems arts) le_rfl
      have hmap : (mkItems arts).map KA.article = arts := by
        unfold mkItems
        rw [List.map_map,
          show (KA.article ∘ fun a => (⟨a, getKeywords a⟩ : KA)) = id from rfl,
          List.map_id]
      rw [hmap] at hp
      exact hp
    have hnodup_items : (mkItems arts).Nodup := by
      apply List.Nodup.of_map (fun x => x.article.id)
      rw [show (mkItems arts).map (fun x => x.article.id) = kaIds (mkItems arts) from rfl,
        kaIds_mkItems]
      exact h
    rw [hcl, clusterMembers_eq arts h]
    refine ⟨hperm, ?_, ?_⟩
    · intro a ha
      rw [List.Perm.count_eq hperm]
      exact List.count_eq_one_of_mem (List.Nodup.of_map _ h) ha
    · intro a ha hiso
      unfold greedy
      apply greedyF_singleton absorbs (mkItems arts).length (mkItems arts)
        ⟨a, getKeywords a⟩ le_rfl hnodup_items
      · simp only [mkItems]
        exact List.mem_map_of_mem _ ha
      · intro o ho hone
        simp only [mkItems, List.mem_map] at ho
        obtain ⟨b, hb, rfl⟩ := ho
        have hba : b.id ≠ a.id := by
          intro hid
          apply hone
          have hbeq : b = a := List.inj_on_of_nodup_map h hb ha hid
          rw [hbeq]
        exact hiso b hb hba

theorem clusterArticles_partition_w :
    ((artsW.map (fun a => a.id)).Nodup)
    ∧ (((clusterArticles artsW).map (fun c => c.clusterArticles)).flatten).Perm artsW :=
  ⟨by decide, (clusterArticles_partition artsW (by decide)).1⟩

/-- Claim C2: on a collection with pairwise-distinct ids the imperative
clustering pass is exactly the specified greedy single pass in input
order — each unprocessed document seeds a cluster that absorbs exactly
the later unprocessed documents passing the two-threshold similarity rule
(`specAbsorb`, with `specSimilarity` the intersection size over the larger
set size floored at 1). -/
theorem fastCluster_matches_greedySpec (arts : List Article)
    (h : (arts.map (fun a => a.id)).Nodup) :
    (fastCluster arts).map (fun c => c.clusterArticles) = specClusters (mkItems arts) := by
  rw [clusterMembers_eq arts h]
  unfold specClusters
  apply greedy_fun_congr
  intro x hx y hy
  exact absorbs_eq_spec x y (mem_mkItems_keywords hx) (mem_mkItems_keywords hy)

theorem fastCluster_matches_greedySpec_w :
    ((artsW.map (fun a => a.id)).Nodup)
    ∧ (fastCluster artsW).map (fun c => c.clusterArticles) = specClusters (mkItems artsW) :=
  ⟨by decide, fastCluster_matches_greedySpec artsW (by decide)⟩

/-! ### Lemmas and claims: topic discovery -/

theorem discoverTopics_min_count (ex : Extractor) (arts : List Article) (minA : Nat) :
    ∀ t ∈ discoverTopics ex arts minA, minA ≤ t.count := by
  intro t ht
  simp only [discoverTopics] at ht
  by_cases he : arts.isEmpty
  · rw [if_pos he] at ht
    exact absurd ht (List.not_mem_nil t)
  · rw [if_neg he] at ht
    obtain ⟨e, he2, rfl⟩ := List.mem_map.mp ht
    have he3 := List.mem_of_mem_take he2
    rw [mem_stableSort] at he3
    have hf := (List.mem_filter.mp he3).2
    simpa using hf

theorem discoverTopics_empty_of_short (ex : Extractor) (arts : List Article) (minA : Nat)
    (h : arts.length < minA) : discoverTopics ex arts minA = [] := by
  simp only [discoverTopics]
  by_cases he : arts.isEmpty
  · rw [if_pos he]
  · rw [if_neg he]
    have hfil : ((jsDedup ((arts.map (keywordsOf ex arts)).flatten)).map (fun k =>
        (k, arts.filter (fun a => decide (k ∈ keywordsOf ex arts a))))).filter
          (fun e => decide (minA ≤ e.2.length)) = [] := by
      apply List.filter_eq_nil_iff.mpr
      intro e hee
      obtain ⟨k, _, rfl⟩ := List.mem_map.mp hee
      have hlen := List.length_filter_le (fun a => decide (k ∈ keywordsOf ex arts a)) arts
      simp only [decide_eq_true_eq]
      omega
    rw [hfil]
    rfl

/-- Claim C4: `discoverTopics` never returns a Topic supported by fewer
than `minArticles` documents (3 at every internal call site), and
`getTopicsByCategory` runs per-category discovery with the lowered
threshold 2, so its topics have at least 2 supporting documents. -/
theorem discoverTopics_respects_minArticles (ex : Extractor) (arts : List Article)
    (minA : Nat) :
    (∀ t ∈ discoverTopics ex arts minA, minA ≤ t.count)
    ∧ (∀ p ∈ getTopicsByCategory ex arts,
        p.2 = discoverTopics ex (arts.filter (fun a => decide (a.category = p.1))) 2
        ∧ ∀ t ∈ p.2, 2 ≤ t.count) := by
  refine ⟨discoverTopics_min_count ex arts minA, ?_⟩
  intro p hp
  simp only [getTopicsByCategory, List.mem_map] at hp
  obtain ⟨c, _, rfl⟩ := hp
  exact ⟨rfl, fun t ht => discoverTopics_min_count ex _ 2 t ht⟩

theorem discoverTopics_respects_minArticles_w :
    (topicW ∈ discoverTopics exW topicArtsW 3) ∧ 3 ≤ topicW.count
    ∧ (("Tech", [techTopicW]) ∈ getTopicsByCategory exW topicArtsW)
    ∧ 2 ≤ techTopicW.count :=
  ⟨by decide,
   (discoverTopics_respects_minArticles exW topicArtsW 3).1 topicW (by decide),
   by decide,
   (((discoverTopics_respects_minArticles exW topicArtsW 3).2 ("Tech", [techTopicW])
      (by decide)).2 techTopicW (by decide))⟩

/-- Claim C8: every topic contract maps an empty input collection to an
empty result (totally — no exception is possible for these functions). -/
theorem topicContracts_empty_input (ex : Extractor) (minA : Nat) (t : Topic) :
    discoverTopics ex [] minA = []
    ∧ analyzeTopicTrends ex [] [] = []
    ∧ getEmergingTopics ex [] = []
    ∧ getTopicsByCategory ex [] = []
    ∧ findRelatedTopics t [] = [] :=
  ⟨rfl, rfl, rfl, rfl, rfl⟩

theorem trend_classify_iff (F : ℚ) :
    ((if 20 < F then Trend.rising else if F < -20 then Trend.falling
        else Trend.stable) = Trend.rising ↔ 20 < F)
    ∧ ((if 20 < F then Trend.rising else if F < -20 then Trend.falling
        else Trend.stable) = Trend.falling ↔ F < -20) := by
  by_cases h20 : 20 < F
  · have hn : ¬ F < -20 := by linarith
    rw [if_pos h20]
    exact ⟨by simp [h20], by simp [hn]⟩
  · rw [if_neg h20]
    by_cases hneg : F < -20
    · rw [if_pos hneg]
      exact ⟨by simp [h20], by simp [hneg]⟩
    · rw [if_neg hneg]
      exact ⟨by simp [h20], by simp [hneg]⟩

/-- Claim C3: in `analyzeTopicTrends`, a current topic absent from the
previous window yields `percentageChange` exactly 100 and trend `rising`;
a present one yields `(current - previous) / previous * 100`, classified
`rising` iff the change exceeds 20 and `falling` iff it is below -20; the
output is sorted by descending absolute percentage change. -/
theorem analyzeTopicTrends_records (ex : Extractor) (cur prev : List Article) :
    (∀ r ∈ analyzeTopicTrends ex cur prev,
      ((discoverTopics ex prev 3).find? (fun p => p.name == r.topic) = none →
        r.percentageChange = 100 ∧ r.trend = Trend.rising)
      ∧ (∀ p, (discoverTopics ex prev 3).find? (fun p' => p'.name == r.topic) = some p →
          r.percentageChange = (((r.currentCount : ℚ) - (p.count : ℚ)) / (p.count : ℚ)) * 100
          ∧ (r.trend = Trend.rising ↔ 20 < r.percentageChange)
          ∧ (r.trend = Trend.falling ↔ r.percentageChange < -20)))
    ∧ List.Pairwise (fun a b => |b.percentageChange| ≤ |a.percentageChange|)
        (analyzeTopicTrends ex cur prev) := by
  constructor
  · intro r hr
    simp only [analyzeTopicTrends] at hr
    rw [mem_stableSort] at hr
    obtain ⟨t, _, rfl⟩ := List.mem_map.mp hr
    constructor
    · intro hnone
      have hnone' : (discoverTopics ex prev 3).find? (fun p => p.name == t.name) = none :=
        hnone
      simp only [mkTrendRecord, hnone', Option.map_none', Option.getD_none]
      norm_num
    · intro p hp
      have hp' : (discoverTopics ex prev 3).find? (fun p' => p'.name == t.name) = some p :=
        hp
      have hpc : 3 ≤ p.count :=
        discoverTopics_min_count ex prev 3 p (List.mem_of_find?_eq_some hp')
      have hpos : 0 < p.count := by omega
      simp only [mkTrendRecord, hp', Option.map_some', Option.getD_some]
      rw [if_pos hpos]
      exact ⟨rfl, (trend_classify_iff _).1, (trend_classify_iff _).2⟩
  · have htot : ∀ (a b : TopicTrend),
        decide (|b.percentageChange| ≤ |a.percentageChange|) = true ∨
        decide (|a.percentageChange| ≤ |b.percentageChange|) = true := by
      intro a b
      rcases le_total |b.percentageChange| |a.percentageChange| with hc | hc
      · exact Or.inl (decide_eq_true hc)
      · exact Or.inr (decide_eq_true hc)
    have htrans : ∀ (a b c : TopicTrend),
        decide (|b.percentageChange| ≤ |a.percentageChange|) = true →
        decide (|c.percentageChange| ≤ |b.percentageChange|) = true →
        decide (|c.percentageChange| ≤ |a.percentageChange|) = true := by
      intro a b c h1 h2
      exact decide_eq_true (le_trans (of_decide_eq_true h2) (of_decide_eq_true h1))
    have hpw := pairwise_stableSort
      (fun a b => decide (|b.percentageChange| ≤ |a.percentageChange|)) htot htrans
      ((discoverTopics ex cur 3).map (mkTrendRecord (discoverTopics ex prev 3)))
    simp only [analyzeTopicTrends]
    exact hpw.imp (fun h => of_decide_eq_true h)

theorem analyzeTopicTrends_records_w :
    trendRecW ∈ analyzeTopicTrends exW curW prevW
    ∧ (discoverTopics exW prevW 3).find? (fun p => p.name == trendRecW.topic) = none
    ∧ trendRecW.percentageChange = 100 ∧ trendRecW.trend = Trend.rising := by
  refine ⟨by decide, by decide, ?_⟩
  exact ((analyzeTopicTrends_records exW curW prevW).1 trendRecW (by decide)).1 (by decide)

/-- Claim C10: on a collection of fewer than 6 documents the recent half
of the midpoint split holds at most 2 documents, discovery over it at the
default threshold 3 is empty, so every topic `getEmergingTopics` returns
falls back to trend `stable` and velocity 0. -/
theorem getEmergingTopics_small_stable (ex : Extractor) (arts : List Article)
    (hn : arts.length < 6) :
    ∀ t ∈ getEmergingTopics ex arts, t.trend = Trend.stable ∧ t.velocity = 0 := by
  intro t ht
  have hrecent : ((stableSort dateDesc arts).take
      ((stableSort dateDesc arts).length / 2)).length < 3 := by
    rw [List.length_take, length_stableSort]
    have h1 : min (arts.length / 2) arts.length ≤ arts.length / 2 := Nat.min_le_left _ _
    have h2 : arts.length / 2 < 3 := by omega
    omega
  have hcur : discoverTopics ex ((stableSort dateDesc arts).take
      ((stableSort dateDesc arts).length / 2)) 3 = [] :=
    discoverTopics_empty_of_short ex _ 3 hrecent
  have htr : analyzeTopicTrends ex
      ((stableSort dateDesc arts).take ((stableSort dateDesc arts).length / 2))
      ((stableSort dateDesc arts).drop ((stableSort dateDesc arts).length / 2)) = [] := by
    simp [analyzeTopicTrends, hcur, stableSort]
  simp only [getEmergingTopics] at ht
  rw [htr] at ht
  rw [mem_stableSort] at ht
  obtain ⟨t₀, _, rfl⟩ := List.mem_map.mp ht
  exact ⟨rfl, rfl⟩

theorem getEmergingTopics_small_stable_w :
    topicArtsW.length < 6 ∧ topicW ∈ getEmergingTopics exW topicArtsW
    ∧ topicW.trend = Trend.stable ∧ topicW.velocity = 0 :=
  ⟨by decide, by decide,
   (getEmergingTopics_small_stable exW topicArtsW (by decide) topicW (by decide)).1,
   (getEmergingTopics_small_stable exW topicArtsW (by decide) topicW (by decide)).2⟩

/-! ### Lemmas and claims: query interpretation -/

theorem conf_floor_bounds (p : ℚ) (hp : 0 ≤ p) :
    1/10 ≤ max (1/10) (1 - p) ∧ max (1/10) (1 - p) ≤ 1
    ∧ 1 ≤ jsRound (max (1/10) (1 - p) * 10)
    ∧ jsRound (max (1/10) (1 - p) * 10) ≤ 10 := by
  have hc1 : (1:ℚ)/10 ≤ max (1/10) (1 - p) := le_max_left _ _
  have hc2 : max (1/10) (1 - p) ≤ 1 := max_le (by norm_num) (by linarith)
  refine ⟨hc1, hc2, ?_, ?_⟩
  · rw [jsRound, Int.le_floor]
    push_cast
    linarith
  · rw [jsRound]
    have h11 : ⌊max (1/10) (1 - p) * 10 + 1/2⌋ < (11 : ℤ) := by
      rw [Int.floor_lt]
      push_cast
      linarith
    omega

/-- Claim C5: `detectAmbiguity` always returns a confidence inside
[0.1, 1], never exactly 0, and a clarity score equal to
`Math.round(confidence * 10)`, hence inside [1, 10]. -/
theorem detectAmbiguity_confidence_bounds (q : String) (arts : List Article) :
    1/10 ≤ (detectAmbiguity q arts).confidence
    ∧ (detectAmbiguity q arts).confidence ≤ 1
    ∧ (detectAmbiguity q arts).clarityScore
        = jsRound ((detectAmbiguity q arts).confidence * 10)
    ∧ 1 ≤ (detectAmbiguity q arts).clarityScore
    ∧ (detectAmbiguity q arts).clarityScore ≤ 10 := by
  have hp : (0:ℚ) ≤ (2/10) * ((ambiguousEntities.filter
        (fun te => strContains (lowerStr q) te.1)).length : ℚ)
      + (1/10) * ((vagueTerms.filter
        (fun t => decide (t ∈ jsSplit Char.isWhitespace (lowerStr q)))).length : ℚ)
      + (if (jsSplit Char.isWhitespace (lowerStr q)).length ≤ 2 then (15/100 : ℚ) else 0)
      + (if 2 < (extractCategories (lowerStr q)).length then (1/10 : ℚ) else 0) := by
    have a1 : (0:ℚ) ≤ (2/10) * ((ambiguousEntities.filter
        (fun te => strContains (lowerStr q) te.1)).length : ℚ) := by positivity
    have a2 : (0:ℚ) ≤ (1/10) * ((vagueTerms.filter
        (fun t => decide (t ∈ jsSplit Char.isWhitespace (lowerStr q)))).length : ℚ) := by
      positivity
    have a3 : (0:ℚ) ≤ (if (jsSplit Char.isWhitespace (lowerStr q)).length ≤ 2
        then (15/100 : ℚ) else 0) := by split <;> norm_num
    have a4 : (0:ℚ) ≤ (if 2 < (extractCategories (lowerStr q)).length
        then (1/10 : ℚ) else 0) := by split <;> norm_num
    linarith
  have hb := conf_floor_bounds _ hp
  simp only [detectAmbiguity]
  exact ⟨hb.1, hb.2.1, trivial, hb.2.2.1, hb.2.2.2⟩

/-- Claim C9: an entity of the ambiguity table is matched as a raw
substring of the lower-cased query (also inside a longer word such as
"apple" in "pineapple"): it is reported in `ambiguousTerms`, its
disambiguation options all appear in `options`, and the 0.2 entity penalty
pushes the confidence down to at most 0.8.  A vague term, in contrast, is
matched only as a whole whitespace-separated word: one that is not a word
of the query is never reported. -/
theorem detectAmbiguity_entity_substring (q : String) (arts : List Article)
    (te : String × List AmbiguityOption) (hte : te ∈ ambiguousEntities)
    (hsub : strContains (lowerStr q) te.1 = true) :
    te.1 ∈ (detectAmbiguity q arts).ambiguousTerms
    ∧ (∀ o ∈ te.2, o ∈ (detectAmbiguity q arts).options)
    ∧ (detectAmbiguity q arts).confidence ≤ 8/10
    ∧ (∀ v ∈ vagueTerms, v ∉ jsSplit Char.isWhitespace (lowerStr q) →
        v ∉ (detectAmbiguity q arts).ambiguousTerms) := by
  have hmem : te ∈ ambiguousEntities.filter (fun te' => strContains (lowerStr q) te'.1) :=
    List.mem_filter.mpr ⟨hte, hsub⟩
  simp only [detectAmbiguity]
  refine ⟨?_, ?_, ?_, ?_⟩
  · exact List.mem_append_left _ (List.mem_map_of_mem Prod.fst hmem)
  · intro o ho
    exact List.mem_flatten.mpr ⟨te.2, List.mem_map_of_mem Prod.snd hmem, ho⟩
  · have hlen : 0 < (ambiguousEntities.filter
        (fun te' => strContains (lowerStr q) te'.1)).length :=
      List.length_pos_of_mem hmem
    have hlen' : (1:ℚ) ≤ ((ambiguousEntities.filter
        (fun te' => strContains (lowerStr q) te'.1)).length : ℚ) := by
      exact_mod_cast hlen
    have a2 : (0:ℚ) ≤ (1/10) * ((vagueTerms.filter
        (fun t => decide (t ∈ jsSplit Char.isWhitespace (lowerStr q)))).length : ℚ) := by
      positivity
    have a3 : (0:ℚ) ≤ (if (jsSplit Char.isWhitespace (lowerStr q)).length ≤ 2
        then (15/100 : ℚ) else 0) := by split <;> norm_num
    have a4 : (0:ℚ) ≤ (if 2 < (extractCategories (lowerStr q)).length
        then (1/10 : ℚ) else 0) := by split <;> norm_num
    apply max_le (by norm_num)
    linarith
  · intro v hv hnw hcontra
    rcases List.mem_append.mp hcontra with hleft | hright
    · obtain ⟨te', hte', hveq⟩ := List.mem_map.mp hleft
      have hent : te' ∈ ambiguousEntities := List.mem_of_mem_filter hte'
      have hdisj : ∀ e ∈ ambiguousEntities, e.1 ∉ vagueTerms := by decide
      exact hdisj te' hent (hveq ▸ hv)
    · have := (List.mem_filter.mp hright).2
      rw [decide_eq_true_eq] at this
      exact hnw this

theorem detectAmbiguity_entity_substring_w :
    appleEntryW ∈ ambiguousEntities
    ∧ strContains (lowerStr "pineapple") appleEntryW.1 = true
    ∧ appleEntryW.1 ∈ (detectAmbiguity "pineapple" ([] : List Article)).ambiguousTerms
    ∧ (detectAmbiguity "pineapple" ([] : List Article)).confidence ≤ 8/10 :=
  ⟨by decide, by decide,
   (detectAmbiguity_entity_substring "pineapple" [] appleEntryW (by decide) (by decide)).1,
   (detectAmbiguity_entity_substring "pineapple" [] appleEntryW
     (by decide) (by decide)).2.2.1⟩

/-- Counterexample to claim C6 as stated: on the query "bank" the code
generates one suggestion per disambiguation option of the matched term,
so the returned list is ["Banking", "River"], and "River" is not the
substitution with the top label's first word (that substitution gives
"Banking"). -/
theorem detectAmbiguity_topLabel_cex :
    (detectAmbiguity "bank" ([] : List Article)).suggestions = ["Banking", "River"]
    ∧ jsReplaceCI "bank" "bank" (firstWord "Banking & Finance") = "Banking"
    ∧ ("River" : String) ≠ "Banking" :=
  ⟨by decide, by decide, by decide⟩

/-- Claim C6 amended: every suggestion of `detectAmbiguity` is either the
query with a matched ambiguous term replaced by the first word of one of
that term's disambiguation option labels (not only the top one), or the
category-narrowing suggestion emitted when more than two categories match;
the list is deduplicated and holds at most 3 entries. -/
theorem detectAmbiguity_suggestions_shape (q : String) (arts : List Article) :
    (∀ s ∈ (detectAmbiguity q arts).suggestions,
      (∃ te ∈ ambiguousEntities, strContains (lowerStr q) te.1 = true ∧
        ∃ opt ∈ te.2, s = jsReplaceCI q te.1 (firstWord opt.label))
      ∨ s = catSuggestion (extractCategories (lowerStr q)))
    ∧ (detectAmbiguity q arts).suggestions.Nodup
    ∧ (detectAmbiguity q arts).suggestions.length ≤ 3 := by
  simp only [detectAmbiguity]
  refine ⟨?_, ?_, ?_⟩
  · intro s hs
    have hs1 := List.mem_of_mem_take hs
    rw [mem_jsDedup] at hs1
    rcases List.mem_append.mp hs1 with hleft | hright
    · obtain ⟨l, hl, hsl⟩ := List.mem_flatten.mp hleft
      obtain ⟨te, hte, rfl⟩ := List.mem_map.mp hl
      obtain ⟨opt, hopt, rfl⟩ := List.mem_map.mp hsl
      have hff := List.mem_filter.mp hte
      exact Or.inl ⟨te, hff.1, hff.2, opt, hopt, rfl⟩
    · right
      by_cases hcond : 2 < (extractCategories (lowerStr q)).length
      · rw [if_pos hcond] at hright
        exact List.mem_singleton.mp hright
      · rw [if_neg hcond] at hright
        exact absurd hright (List.not_mem_nil s)
  · exact List.Sublist.nodup (List.take_sublist _ _) (nodup_jsDedup _)
  · exact List.length_take_le _ _

theorem detectAmbiguity_suggestions_shape_w :
    ("River" ∈ (detectAmbiguity "bank" ([] : List Article)).suggestions)
    ∧ ((∃ te ∈ ambiguousEntities, strContains (lowerStr "bank") te.1 = true ∧
        ∃ opt ∈ te.2, "River" = jsReplaceCI "bank" te.1 (firstWord opt.label))
      ∨ "River" = catSuggestion (extractCategories (lowerStr "bank"))) :=
  ⟨by decide, (detectAmbiguity_suggestions_shape "bank" []).1 "River" (by decide)⟩

/-- Counterexample to claim C7 as stated: with intent `compare` and a
non-empty result list of exactly one article, `generateResponse` appends
no closing clause — the compare clause requires more than one result. -/
theorem generateResponse_compare_cex :
    generateResponse nowW pqCompareW resultW = "Found 1 article."
    ∧ strContains (generateResponse nowW pqCompareW resultW) "compare" = false :=
  ⟨by decide, by decide⟩

/-- Claim C7 amended: `generateResponse` appends the summarize and analyze
closing clauses whenever the result list is non-empty, appends the compare
clause only when there is more than one result, and replaces the whole
message by the no-results sentence when the result list is empty. -/
theorem generateResponse_intent_clauses (now : JSDate) (q : ParsedQuery)
    (results : List Article) :
    (q.intent = Intent.summarize → 0 < results.length →
      generateResponse now q results = responseBase now q results ++ summarizeClause)
    ∧ (q.intent = Intent.analyze → 0 < results.length →
      generateResponse now q results = responseBase now q results ++ analyzeClause)
    ∧ (q.intent = Intent.compare → 1 < results.length →
      generateResponse now q results = responseBase now q results ++ compareClause)
    ∧ (results = [] → generateResponse now q results = noResultsMessage) := by
  refine ⟨?_, ?_, ?_, ?_⟩
  · intro hi hlen
    have hne : results.length ≠ 0 := by omega
    simp [generateResponse, hi, hlen, hne]
  · intro hi hlen
    have hne : results.length ≠ 0 := by omega
    simp [generateResponse, hi, hlen, hne]
  · intro hi hlen
    have hlen0 : 0 < results.length := by omega
    have hne : results.length ≠ 0 := by omega
    simp [generateResponse, hi, hlen, hlen0, hne]
  · intro hres
    subst hres
    simp [generateResponse]

theorem generateResponse_intent_clauses_w :
    pqSummarizeW.intent = Intent.summarize ∧ 0 < resultW.length
    ∧ generateResponse nowW pqSummarizeW resultW
        = responseBase nowW pqSummarizeW resultW ++ summarizeClause :=
  ⟨rfl, by decide,
   (generateResponse_intent_clauses nowW pqSummarizeW resultW).1 rfl (by decide)⟩
